import Mathlib

/-!
Verification of the hybrid inline/heap vector `StackVec` from
`src/vec/stack_vec.rs`.

The Rust code stores elements in one of two representations:
`UnallocatedVec` (a fixed array of `N` `MaybeUninit<T>` slots plus a length)
and `AllocatedVec` (a heap buffer of `cap` slots plus a length).  We embed a
`MaybeUninit<T>` slot as `Option α` (`none` = uninitialized / moved out) and a
buffer as a `List (Option α)` whose length is the number of slots.  Reads of a
slot use `List.getD i none`, so an (undefined-behavior) read of an
uninitialized or out-of-range slot yields `none`; well-formed states never hit
that case.  Mutating Rust methods become functions returning the new vector
(paired with the returned value where the method returns one).

The zero-sized-type panic in `StackVec::new` and the allocation-failure aborts
are type- and allocator-level conditions with no value-level content; the
embedding models the post-allocation behavior (allocations always succeed,
matching the spec's "fatal, never observed" contract).
-/

namespace CollectMe

/-- `UnallocatedVec<T, N>`: `N` possibly-uninitialized slots plus a length. -/
structure UnallocatedVec (α : Type) (N : Nat) where
  data : List (Option α)
  len : Nat

/-- `AllocatedVec<T>`: heap buffer (`cap` slots), capacity and length. -/
structure AllocatedVec (α : Type) where
  data : List (Option α)
  cap : Nat
  len : Nat

variable {α : Type} {N : Nat}

/-- `AllocatedVec::grow`: reallocate to `2 * cap` slots; `realloc` preserves
the first `cap` slots and the new tail is uninitialized; then `cap *= 2`. -/
def AllocatedVec.grow (v : AllocatedVec α) : AllocatedVec α :=
  { data := v.data ++ List.replicate v.cap none
    cap := v.cap * 2
    len := v.len }

/-- `AllocatedVec::push`: grow when full, then write `value` at index `len`
and increment `len`. -/
def AllocatedVec.push (v : AllocatedVec α) (value : α) : AllocatedVec α :=
  let w := if v.len = v.cap then v.grow else v
  { w with data := w.data.set w.len (some value), len := w.len + 1 }

/-- `StackVec<T, N>`: tagged union of the two storage representations. -/
inductive StackVec (α : Type) (N : Nat) where
  | Unallocated : UnallocatedVec α N → StackVec α N
  | Allocated : AllocatedVec α → StackVec α N

namespace StackVec

/-- `StackVec::new`: empty, inline, all slots uninitialized. -/
def new (α : Type) (N : Nat) : StackVec α N :=
  .Unallocated { data := List.replicate N none, len := 0 }

/-- `StackVec::len`. -/
def len : StackVec α N → Nat
  | .Unallocated v => v.len
  | .Allocated v => v.len

/-- `StackVec::is_empty`. -/
def is_empty (v : StackVec α N) : Bool :=
  v.len == 0

/-- `StackVec::capacity`: `N` while inline, the heap capacity once
allocated. -/
def capacity : StackVec α N → Nat
  | .Unallocated _ => N
  | .Allocated v => v.cap

/-- `StackVec::is_allocated`. -/
def is_allocated : StackVec α N → Bool
  | .Unallocated _ => false
  | .Allocated _ => true

/-- `StackVec::push`.  Inline with room: write into slot `len`.  Inline and
full: allocate a fresh buffer of exactly `len + 1` slots, copy the `len`
inline slots, write `value` at position `len`, and switch to the allocated
representation with `cap = len = len + 1`.  Allocated: `AllocatedVec::push`. -/
def push : StackVec α N → α → StackVec α N
  | .Unallocated v, value =>
    if v.len < N then
      .Unallocated { v with data := v.data.set v.len (some value),
                            len := v.len + 1 }
    else
      .Allocated { data := v.data.take v.len ++ [some value]
                   cap := v.len + 1
                   len := v.len + 1 }
  | .Allocated v, value => .Allocated (v.push value)

/-- `StackVec::pop`: take the last element out (inline storage marks the slot
uninitialized; heap storage just excludes it from `[0, len)`), or `none` when
empty.  Returns the removed value paired with the updated vector. -/
def pop : StackVec α N → Option α × StackVec α N
  | .Unallocated v =>
    if 0 < v.len then
      (v.data.getD (v.len - 1) none,
       .Unallocated { v with data := v.data.set (v.len - 1) none,
                             len := v.len - 1 })
    else
      (none, .Unallocated v)
  | .Allocated v =>
    if 0 < v.len then
      (v.data.getD (v.len - 1) none, .Allocated { v with len := v.len - 1 })
    else
      (none, .Allocated v)

/-- `StackVec::swap_remove`: rejected when `index >= len` or when `index` is
the last valid index; otherwise move the last element out, decrement `len`,
and exchange it with the slot at `index`, returning the slot's old value. -/
def swap_remove (v : StackVec α N) (index : Nat) : Option α × StackVec α N :=
  if v.len ≤ index then
    (none, v)
  else if !v.is_empty && index == v.len - 1 then
    (none, v)
  else
    match v with
    | .Unallocated u =>
      if 1 < u.len then
        let back := u.data.getD (u.len - 1) none
        let data1 := u.data.set (u.len - 1) none
        (data1.getD index none,
         .Unallocated { u with data := data1.set index back,
                               len := u.len - 1 })
      else
        (none, .Unallocated u)
    | .Allocated a =>
      if 1 < a.len then
        let back := a.data.getD (a.len - 1) none
        (a.data.getD index none,
         .Allocated { a with data := a.data.set index back,
                             len := a.len - 1 })
      else
        (none, .Allocated a)

/-- `StackVec::clear`: drop the initialized prefix and reset `len` to 0.
Inline slots all revert to uninitialized; the heap allocation is kept. -/
def clear : StackVec α N → StackVec α N
  | .Unallocated _ => .Unallocated { data := List.replicate N none, len := 0 }
  | .Allocated v => .Allocated { v with len := 0 }

/-- `Index for StackVec`: the element at `index`, with the out-of-bounds
panic modeled as `none`. -/
def index : StackVec α N → Nat → Option α
  | .Unallocated v, i => if v.len ≤ i then none else v.data.getD i none
  | .Allocated v, i => if v.len ≤ i then none else v.data.getD i none

/-- `Deref for StackVec`: the slice view `[0, len)`.  Under well-formedness
every slot in the prefix is initialized, so `filterMap id` returns exactly
the stored elements in order. -/
def toSlice : StackVec α N → List α
  | .Unallocated v => (v.data.take v.len).filterMap id
  | .Allocated v => (v.data.take v.len).filterMap id

/-- Push a whole list of values in order (`foldl` of `push`). -/
def pushAll (v : StackVec α N) (xs : List α) : StackVec α N :=
  xs.foldl push v

/-- The vector obtained from `new` by pushing the elements of `xs` in
order. -/
def fromList (α : Type) (N : Nat) (xs : List α) : StackVec α N :=
  (new α N).pushAll xs

/-- Pop `k` times, collecting the returned options in order. -/
def popAll : StackVec α N → Nat → List (Option α) × StackVec α N
  | v, 0 => ([], v)
  | v, k + 1 =>
    let p := v.pop
    let q := p.2.popAll k
    (p.1 :: q.1, q.2)

/-- The heap buffer, when the vector is heap-allocated. -/
def heapBuffer : StackVec α N → Option (List (Option α))
  | .Unallocated _ => none
  | .Allocated v => some v.data

end StackVec

/-- Well-formedness: the buffer has the advertised number of slots, `len` is
within capacity, and the slots of the prefix `[0, len)` hold exactly the
elements of `xs` (in particular they are all initialized).  `ReprOk v xs`
reads "`v` is a valid vector currently holding the sequence `xs`". -/
def ReprOk : StackVec α N → List α → Prop
  | .Unallocated u, xs =>
    u.data.length = N ∧ u.len = xs.length ∧ xs.length ≤ N ∧
      u.data.take u.len = xs.map some
  | .Allocated a, xs =>
    a.data.length = a.cap ∧ a.len = xs.length ∧ xs.length ≤ a.cap ∧
      0 < a.cap ∧ a.data.take a.len = xs.map some

/-- States reachable by pushes alone additionally satisfy the capacity
discipline: inline until more than `N` elements, and afterwards the capacity
is a power-of-two multiple of `N + 1` that is less than twice the length. -/
def PushInv (v : StackVec α N) (xs : List α) : Prop :=
  ReprOk v xs ∧
    match v with
    | .Unallocated _ => True
    | .Allocated a => N < a.len ∧ ∃ k, a.cap = 2 ^ k * (N + 1) ∧ a.cap < 2 * a.len

/-! ### Buffer lemmas -/

theorem take_set_succ {β : Type} :
    ∀ (l : List β) (i : Nat) (a : β), i < l.length →
      (l.set i a).take (i + 1) = l.take i ++ [a]
  | _ :: _, 0, _, _ => rfl
  | b :: l, i + 1, a, h => by
    have ih := take_set_succ l i a (by simpa using h)
    simp [ih]

theorem getD_set_ne {β : Type} (l : List β) {i j : Nat} (a d : β) (h : i ≠ j) :
    (l.set i a).getD j d = l.getD j d := by
  rw [List.getD_eq_getElem?_getD, List.getD_eq_getElem?_getD,
    List.getElem?_set_ne h]

theorem getD_of_take_eq {l : List (Option α)} {xs : List α}
    (h : l.take xs.length = xs.map some) {j : Nat} (hj : j < xs.length) :
    l.getD j none = xs[j]? := by
  have h1 : (l.take xs.length)[j]? = l[j]? := by
    rw [List.getElem?_take, if_pos hj]
  rw [List.getD_eq_getElem?_getD, ← h1, h, List.getElem?_map,
    List.getElem?_eq_getElem hj]
  simp [List.getElem?_eq_getElem hj]

theorem take_pred_of_take_eq {l : List (Option α)} {xs : List α}
    (h : l.take xs.length = xs.map some) :
    l.take (xs.length - 1) = xs.dropLast.map some := by
  have h1 : l.take (xs.length - 1) = (l.take xs.length).take (xs.length - 1) := by
    rw [List.take_take, Nat.min_eq_left (Nat.sub_le _ _)]
  rw [h1, h, ← List.map_take, ← List.dropLast_eq_take]

theorem take_set_pred {l : List (Option α)} (len : Nat) (a : Option α) :
    (l.set (len - 1) a).take (len - 1) = l.take (len - 1) := by
  rw [List.set_take, List.set_eq_of_length_le]
  simp [List.length_take]

theorem filterMap_id_map_some (xs : List α) : (xs.map some).filterMap id = xs := by
  induction xs with
  | nil => rfl
  | cons a l ih => simp [ih]

/-! ### Facts about well-formed states -/

theorem ReprOk.len_eq {v : StackVec α N} {xs : List α} (h : ReprOk v xs) :
    v.len = xs.length := by
  cases v with
  | Unallocated u => exact h.2.1
  | Allocated a => exact h.2.1

theorem ReprOk.toSlice_eq {v : StackVec α N} {xs : List α} (h : ReprOk v xs) :
    v.toSlice = xs := by
  cases v with
  | Unallocated u =>
    obtain ⟨h1, h2, h3, h4⟩ := h
    show (u.data.take u.len).filterMap id = xs
    rw [h4, filterMap_id_map_some]
  | Allocated a =>
    obtain ⟨h1, h2, h3, h4, h5⟩ := h
    show (a.data.take a.len).filterMap id = xs
    rw [h5, filterMap_id_map_some]

/-- One push preserves the push-reachability invariant. -/
theorem push_pushInv {v : StackVec α N} {xs : List α} (h : PushInv v xs) (x : α) :
    PushInv (v.push x) (xs ++ [x]) := by
  cases v with
  | Unallocated u =>
    obtain ⟨⟨hdlen, hlen, hle, hpre⟩, -⟩ := h
    by_cases hlt : u.len < N
    · simp only [StackVec.push]
      rw [if_pos hlt]
      refine ⟨⟨?_, ?_, ?_, ?_⟩, trivial⟩
      · show (u.data.set u.len (some x)).length = N
        rw [List.length_set]; exact hdlen
      · show u.len + 1 = (xs ++ [x]).length
        simp [hlen]
      · simp only [List.length_append, List.length_cons, List.length_nil]
        omega
      · show (u.data.set u.len (some x)).take (u.len + 1) = (xs ++ [x]).map some
        rw [take_set_succ u.data u.len (some x) (by rw [hdlen]; exact hlt),
          hpre, List.map_append]
        rfl
    · have hN : u.len = N := by omega
      simp only [StackVec.push]
      rw [if_neg hlt]
      have hfull : (u.data.take u.len ++ [some x]).length = u.len + 1 := by
        simp [List.length_take, hdlen, hN]
      refine ⟨⟨?_, ?_, ?_, ?_, ?_⟩, ?_, 0, ?_, ?_⟩
      · exact hfull
      · show u.len + 1 = (xs ++ [x]).length
        simp [hlen]
      · show (xs ++ [x]).length ≤ u.len + 1
        simp only [List.length_append, List.length_cons, List.length_nil]
        omega
      · show 0 < u.len + 1
        omega
      · show (u.data.take u.len ++ [some x]).take (u.len + 1) = (xs ++ [x]).map some
        rw [← hfull, List.take_length, hpre, List.map_append]
        rfl
      · show N < u.len + 1
        omega
      · show u.len + 1 = 2 ^ 0 * (N + 1)
        omega
      · show u.len + 1 < 2 * (u.len + 1)
        omega
  | Allocated a =>
    obtain ⟨⟨hdlen, hlen, hle, hpos, hpre⟩, hN, k, hcap, hcap2⟩ := h
    show PushInv (.Allocated (a.push x)) (xs ++ [x])
    by_cases hfull : a.len = a.cap
    · have hgrow : a.push x =
          { data := (a.data ++ List.replicate a.cap none).set a.len (some x)
            cap := a.cap * 2
            len := a.len + 1 } := by
        simp [AllocatedVec.push, AllocatedVec.grow, hfull]
      rw [hgrow]
      have h5 : a.len = a.data.length := by omega
      have hdata : a.data = xs.map some := by
        rw [← hpre, h5, List.take_length]
      refine ⟨⟨?_, ?_, ?_, ?_, ?_⟩, ?_, k + 1, ?_, ?_⟩
      · show ((a.data ++ List.replicate a.cap none).set a.len (some x)).length
            = a.cap * 2
        simp only [List.length_set, List.length_append, List.length_replicate,
          hdlen]
        omega
      · show a.len + 1 = (xs ++ [x]).length
        simp [hlen]
      · show (xs ++ [x]).length ≤ a.cap * 2
        simp only [List.length_append, List.length_cons, List.length_nil]
        omega
      · show 0 < a.cap * 2
        omega
      · show ((a.data ++ List.replicate a.cap none).set a.len (some x)).take
            (a.len + 1) = (xs ++ [x]).map some
        rw [take_set_succ _ _ _
            (by simp only [List.length_append, List.length_replicate, hdlen]; omega),
          h5, List.take_left, hdata, List.map_append]
        rfl
      · show N < a.len + 1
        omega
      · show a.cap * 2 = 2 ^ (k + 1) * (N + 1)
        rw [hcap]; ring
      · show a.cap * 2 < 2 * (a.len + 1)
        omega
    · have hltc : a.len < a.cap := by omega
      have hnog : a.push x =
          { data := a.data.set a.len (some x), cap := a.cap, len := a.len + 1 } := by
        simp [AllocatedVec.push, hfull]
      rw [hnog]
      refine ⟨⟨?_, ?_, ?_, ?_, ?_⟩, ?_, k, ?_, ?_⟩
      · show (a.data.set a.len (some x)).length = a.cap
        rw [List.length_set]; exact hdlen
      · show a.len + 1 = (xs ++ [x]).length
        simp [hlen]
      · show (xs ++ [x]).length ≤ a.cap
        simp only [List.length_append, List.length_cons, List.length_nil]
        omega
      · show 0 < a.cap
        omega
      · show (a.data.set a.len (some x)).take (a.len + 1) = (xs ++ [x]).map some
        rw [take_set_succ a.data a.len (some x) (by omega), hpre,
          List.map_append]
        rfl
      · show N < a.len + 1
        omega
      · exact hcap
      · show a.cap < 2 * (a.len + 1)
        omega

theorem pushAll_pushInv :
    ∀ (ys : List α) (v : StackVec α N) (xs : List α),
      PushInv v xs → PushInv (v.pushAll ys) (xs ++ ys) := by
  intro ys
  induction ys with
  | nil => intro v xs h; simpa using h
  | cons y ys ih =>
    intro v xs h
    have h3 := ih (v.push y) (xs ++ [y]) (push_pushInv h y)
    simpa [StackVec.pushAll, List.append_assoc] using h3

theorem new_pushInv : PushInv (StackVec.new α N) ([] : List α) :=
  ⟨⟨List.length_replicate N none, rfl, Nat.zero_le N, rfl⟩, trivial⟩

theorem fromList_pushInv (xs : List α) :
    PushInv (StackVec.fromList α N xs) xs := by
  have h := pushAll_pushInv xs (StackVec.new α N) [] new_pushInv
  simpa [StackVec.fromList] using h

/-- `pop` on a well-formed state: it returns the last element (or `none` when
empty), decrements the length, and leaves a well-formed state holding the
sequence without its last element. -/
theorem pop_ReprOk {v : StackVec α N} {xs : List α} (h : ReprOk v xs) :
    v.pop.1 = xs.getLast? ∧ v.pop.2.len = v.len - 1 ∧ ReprOk v.pop.2 xs.dropLast := by
  cases v with
  | Unallocated u =>
    obtain ⟨hdlen, hlen, hle, hpre⟩ := h
    have hpre' : u.data.take xs.length = xs.map some := by
      rw [← hlen]; exact hpre
    rcases Nat.eq_zero_or_pos u.len with h0 | hpos
    · have hxs : xs = [] := List.length_eq_zero.mp (by omega)
      subst hxs
      simp only [StackVec.pop]
      rw [if_neg (by omega)]
      exact ⟨rfl, by show u.len = u.len - 1; omega, hdlen, hlen, hle, hpre⟩
    · simp only [StackVec.pop]
      rw [if_pos hpos]
      refine ⟨?_, rfl, ?_, ?_, ?_, ?_⟩
      · show u.data.getD (u.len - 1) none = xs.getLast?
        rw [hlen, getD_of_take_eq hpre' (by omega), List.getLast?_eq_getElem?]
      · show (u.data.set (u.len - 1) none).length = N
        rw [List.length_set]; exact hdlen
      · show u.len - 1 = xs.dropLast.length
        simp only [List.length_dropLast]; omega
      · show xs.dropLast.length ≤ N
        simp only [List.length_dropLast]; omega
      · show (u.data.set (u.len - 1) none).take (u.len - 1) = xs.dropLast.map some
        rw [take_set_pred, hlen, take_pred_of_take_eq hpre']
  | Allocated a =>
    obtain ⟨hdlen, hlen, hle, hpos, hpre⟩ := h
    have hpre' : a.data.take xs.length = xs.map some := by
      rw [← hlen]; exact hpre
    rcases Nat.eq_zero_or_pos a.len with h0 | hpos2
    · have hxs : xs = [] := List.length_eq_zero.mp (by omega)
      subst hxs
      simp only [StackVec.pop]
      rw [if_neg (by omega)]
      exact ⟨rfl, by show a.len = a.len - 1; omega, hdlen, hlen, hle, hpos, hpre⟩
    · simp only [StackVec.pop]
      rw [if_pos hpos2]
      refine ⟨?_, rfl, hdlen, ?_, ?_, hpos, ?_⟩
      · show a.data.getD (a.len - 1) none = xs.getLast?
        rw [hlen, getD_of_take_eq hpre' (by omega), List.getLast?_eq_getElem?]
      · show a.len - 1 = xs.dropLast.length
        simp only [List.length_dropLast]; omega
      · show xs.dropLast.length ≤ a.cap
        simp only [List.length_dropLast]; omega
      · show a.data.take (a.len - 1) = xs.dropLast.map some
        rw [hlen, take_pred_of_take_eq hpre']

/-- Popping `j ≤ len` times from a well-formed state returns the last `j`
elements in reverse order and leaves the first `len - j` elements. -/
theorem popAll_ReprOk :
    ∀ (j : Nat) (v : StackVec α N) (xs : List α), ReprOk v xs → j ≤ xs.length →
      (v.popAll j).1 = (xs.drop (xs.length - j)).reverse.map some ∧
        ReprOk (v.popAll j).2 (xs.take (xs.length - j)) := by
  intro j
  induction j with
  | zero =>
    intro v xs h hj
    constructor
    · show ([] : List (Option α)) = (xs.drop (xs.length - 0)).reverse.map some
      simp
    · show ReprOk v (xs.take (xs.length - 0))
      simpa [List.take_length] using h
  | succ j ih =>
    intro v xs h hj
    have hne : xs ≠ [] := by
      intro he; subst he
      simp only [List.length_nil] at hj; omega
    obtain ⟨hp1, hp2, hp3⟩ := pop_ReprOk h
    have ihh := ih v.pop.2 xs.dropLast hp3
      (by simp only [List.length_dropLast]; omega)
    have hlast : xs.getLast? = some (xs.getLast hne) :=
      List.getLast?_eq_getLast xs hne
    have hxs : xs.dropLast ++ [xs.getLast hne] = xs :=
      List.dropLast_append_getLast hne
    have harg : xs.length - (j + 1) = xs.dropLast.length - j := by
      simp only [List.length_dropLast]; omega
    have hdrop0 := @List.drop_append_of_le_length α xs.dropLast
      [xs.getLast hne] (xs.dropLast.length - j) (Nat.sub_le _ _)
    rw [hxs] at hdrop0
    have hdrop : xs.drop (xs.length - (j + 1)) =
        xs.dropLast.drop (xs.dropLast.length - j) ++ [xs.getLast hne] := by
      rw [harg, hdrop0]
    have htake : xs.dropLast.take (xs.dropLast.length - j) =
        xs.take (xs.length - (j + 1)) := by
      simp only [List.dropLast_eq_take, List.take_take, List.length_take]
      congr 1
      omega
    constructor
    · show v.pop.1 :: (v.pop.2.popAll j).1 =
        (xs.drop (xs.length - (j + 1))).reverse.map some
      rw [hp1, hlast, ihh.1, hdrop, List.reverse_append]
      simp
    · show ReprOk (v.pop.2.popAll j).2 (xs.take (xs.length - (j + 1)))
      exact htake ▸ ihh.2

/-! ### The claims -/

/-- C1: starting from a new vector, for every sequence of `M` pushes with
`M > N`, `capacity()` equals the smallest value of the growth sequence
`N+1, 2(N+1), 4(N+1), …` that is greater than or equal to `M`. -/
theorem growth_sequence_capacity (xs : List α) (hM : N < xs.length) :
    ∃ k, (StackVec.fromList α N xs).capacity = 2 ^ k * (N + 1) ∧
      xs.length ≤ 2 ^ k * (N + 1) ∧
      ∀ j, xs.length ≤ 2 ^ j * (N + 1) → 2 ^ k * (N + 1) ≤ 2 ^ j * (N + 1) := by
  obtain ⟨hr, hx⟩ := fromList_pushInv (N := N) xs
  cases hcase : StackVec.fromList α N xs with
  | Unallocated u =>
    rw [hcase] at hr
    exact absurd hr.2.2.1 (by omega)
  | Allocated a =>
    rw [hcase] at hr hx
    obtain ⟨hN, k, hcap, hlt⟩ := hx
    obtain ⟨hdlen, hlen, hle, hpos, hpre⟩ := hr
    refine ⟨k, hcap, by omega, ?_⟩
    intro j hj
    by_cases hkj : k ≤ j
    · exact Nat.mul_le_mul_right _ (Nat.pow_le_pow_right (by omega) hkj)
    · exfalso
      have h1 : 2 ^ (j + 1) ≤ 2 ^ k := Nat.pow_le_pow_right (by omega) (by omega)
      have h2 : 2 ^ (j + 1) * (N + 1) ≤ 2 ^ k * (N + 1) :=
        Nat.mul_le_mul_right _ h1
      have h3 : 2 ^ (j + 1) * (N + 1) = 2 * (2 ^ j * (N + 1)) := by ring
      omega

/-- C1 witness: `N = 4`, seven pushes, capacity `10 = 2 · (4+1)`. -/
theorem growth_sequence_capacity_witness :
    4 < ([0, 1, 2, 3, 4, 5, 6] : List Nat).length ∧
      ∃ k, (StackVec.fromList Nat 4 [0, 1, 2, 3, 4, 5, 6]).capacity = 2 ^ k * (4 + 1) ∧
        ([0, 1, 2, 3, 4, 5, 6] : List Nat).length ≤ 2 ^ k * (4 + 1) ∧
        ∀ j, ([0, 1, 2, 3, 4, 5, 6] : List Nat).length ≤ 2 ^ j * (4 + 1) →
          2 ^ k * (4 + 1) ≤ 2 ^ j * (4 + 1) :=
  ⟨by decide, growth_sequence_capacity [0, 1, 2, 3, 4, 5, 6] (by decide)⟩

/-- C2: pushing an element onto an inline vector whose length equals `N`
switches to the heap representation with `capacity = len = N + 1`, the old
elements keep their order in the slice view, and the new element is last. -/
theorem inline_full_push_transition (v : StackVec α N) (xs : List α) (x : α)
    (h : ReprOk v xs) (ha : v.is_allocated = false) (hl : xs.length = N) :
    (v.push x).is_allocated = true ∧ (v.push x).capacity = N + 1 ∧
      (v.push x).len = N + 1 ∧ (v.push x).toSlice = xs ++ [x] := by
  cases v with
  | Allocated a => exact absurd ha (by simp [StackVec.is_allocated])
  | Unallocated u =>
    obtain ⟨hdlen, hlen, hle, hpre⟩ := h
    have hnolt : ¬ u.len < N := by omega
    simp only [StackVec.push]
    rw [if_neg hnolt]
    refine ⟨rfl, ?_, ?_, ?_⟩
    · show u.len + 1 = N + 1
      omega
    · show u.len + 1 = N + 1
      omega
    · show ((u.data.take u.len ++ [some x]).take (u.len + 1)).filterMap id
        = xs ++ [x]
      have hfull : (u.data.take u.len ++ [some x]).length = u.len + 1 := by
        simp [List.length_take, hdlen]
        omega
      have hmap : xs.map some ++ [some x] = (xs ++ [x]).map some := by
        rw [List.map_append]; rfl
      rw [← hfull, List.take_length, hpre, hmap, filterMap_id_map_some]

/-- C2 witness: `N = 2`, inline `[5, 6]`, pushing `7`. -/
theorem inline_full_push_transition_witness :
    ((StackVec.Unallocated ⟨[some 5, some 6], 2⟩ : StackVec Nat 2).push 7).is_allocated = true ∧
      ((StackVec.Unallocated ⟨[some 5, some 6], 2⟩ : StackVec Nat 2).push 7).capacity = 2 + 1 ∧
      ((StackVec.Unallocated ⟨[some 5, some 6], 2⟩ : StackVec Nat 2).push 7).len = 2 + 1 ∧
      ((StackVec.Unallocated ⟨[some 5, some 6], 2⟩ : StackVec Nat 2).push 7).toSlice = [5, 6] ++ [7] := by
  have pr : ReprOk (StackVec.Unallocated ⟨[some 5, some 6], 2⟩ : StackVec Nat 2) [5, 6] :=
    ⟨rfl, rfl, by decide, rfl⟩
  exact inline_full_push_transition _ [5, 6] 7 pr rfl rfl

/-- `swap_remove` on an inline vector, fully reduced (definitional). -/
theorem swap_remove_unalloc (u : UnallocatedVec α N) (i : Nat) :
    StackVec.swap_remove (.Unallocated u) i =
      if u.len ≤ i then (none, .Unallocated u)
      else if !(u.len == 0) && i == u.len - 1 then (none, .Unallocated u)
      else if 1 < u.len then
        ((u.data.set (u.len - 1) none).getD i none,
         .Unallocated { data := (u.data.set (u.len - 1) none).set i
                          (u.data.getD (u.len - 1) none),
                        len := u.len - 1 })
      else (none, .Unallocated u) := rfl

/-- `swap_remove` on a heap vector, fully reduced (definitional). -/
theorem swap_remove_alloc (a : AllocatedVec α) (i : Nat) :
    StackVec.swap_remove (.Allocated a : StackVec α N) i =
      if a.len ≤ i then (none, .Allocated a)
      else if !(a.len == 0) && i == a.len - 1 then (none, .Allocated a)
      else if 1 < a.len then
        (a.data.getD i none,
         .Allocated { data := a.data.set i (a.data.getD (a.len - 1) none),
                      cap := a.cap,
                      len := a.len - 1 })
      else (none, .Allocated a) := rfl

/-- C3: `swap_remove(i)` with `i < len - 1` returns the element originally at
`i`; afterwards the length is one less, the former last element sits at
position `i`, and every other position is unchanged (the new contents are
`xs.dropLast.set i y` where `y` is the old last element). -/
theorem swap_remove_middle (v : StackVec α N) (xs : List α) (i : Nat) (y : α)
    (h : ReprOk v xs) (hi : i < xs.length - 1) (hy : xs.getLast? = some y) :
    (v.swap_remove i).1 = xs[i]? ∧ (v.swap_remove i).2.len = xs.length - 1 ∧
      ReprOk (v.swap_remove i).2 (xs.dropLast.set i y) := by
  cases v with
  | Unallocated u =>
    obtain ⟨hdlen, hlen, hle, hpre⟩ := h
    have hpre' : u.data.take xs.length = xs.map some := by
      rw [← hlen]; exact hpre
    have hback : u.data.getD (u.len - 1) none = some y := by
      rw [hlen, getD_of_take_eq hpre' (by omega), ← List.getLast?_eq_getElem?, hy]
    have hbne : (i == u.len - 1) = false := beq_eq_false_iff_ne.mpr (by omega)
    rw [swap_remove_unalloc, if_neg (by omega : ¬ u.len ≤ i),
      if_neg (by rw [hbne, Bool.and_false]; simp),
      if_pos (by omega : 1 < u.len)]
    refine ⟨?_, ?_, ?_, ?_, ?_, ?_⟩
    · show (u.data.set (u.len - 1) none).getD i none = xs[i]?
      rw [getD_set_ne u.data none none (by omega), getD_of_take_eq hpre' (by omega)]
    · show u.len - 1 = xs.length - 1
      omega
    · show ((u.data.set (u.len - 1) none).set i (u.data.getD (u.len - 1) none)).length = N
      simp only [List.length_set]
      exact hdlen
    · show u.len - 1 = (xs.dropLast.set i y).length
      simp only [List.length_set, List.length_dropLast]
      omega
    · show (xs.dropLast.set i y).length ≤ N
      simp only [List.length_set, List.length_dropLast]
      omega
    · show ((u.data.set (u.len - 1) none).set i (u.data.getD (u.len - 1) none)).take (u.len - 1)
        = (xs.dropLast.set i y).map some
      rw [hback, List.set_take, take_set_pred, hlen, take_pred_of_take_eq hpre',
        List.map_set]
  | Allocated a =>
    obtain ⟨hdlen, hlen, hle, hcpos, hpre⟩ := h
    have hpre' : a.data.take xs.length = xs.map some := by
      rw [← hlen]; exact hpre
    have hback : a.data.getD (a.len - 1) none = some y := by
      rw [hlen, getD_of_take_eq hpre' (by omega), ← List.getLast?_eq_getElem?, hy]
    have hbne : (i == a.len - 1) = false := beq_eq_false_iff_ne.mpr (by omega)
    rw [swap_remove_alloc, if_neg (by omega : ¬ a.len ≤ i),
      if_neg (by rw [hbne, Bool.and_false]; simp),
      if_pos (by omega : 1 < a.len)]
    refine ⟨?_, ?_, ?_, ?_, ?_, ?_, ?_⟩
    · show a.data.getD i none = xs[i]?
      rw [getD_of_take_eq hpre' (by omega)]
    · show a.len - 1 = xs.length - 1
      omega
    · show (a.data.set i (a.data.getD (a.len - 1) none)).length = a.cap
      simp only [List.length_set]
      exact hdlen
    · show a.len - 1 = (xs.dropLast.set i y).length
      simp only [List.length_set, List.length_dropLast]
      omega
    · show (xs.dropLast.set i y).length ≤ a.cap
      simp only [List.length_set, List.length_dropLast]
      omega
    · exact hcpos
    · show (a.data.set i (a.data.getD (a.len - 1) none)).take (a.len - 1)
        = (xs.dropLast.set i y).map some
      rw [hback, List.set_take, hlen, take_pred_of_take_eq hpre', List.map_set]

/-- C3 witness: `N = 8`, `[1,2,3,4,5]`, `swap_remove 2` returns `3` and the
vector becomes `[1,2,5,4]`. -/
theorem swap_remove_middle_witness :
    ((StackVec.Unallocated ⟨[some 1, some 2, some 3, some 4, some 5, none, none, none], 5⟩ :
        StackVec Nat 8).swap_remove 2).1 = ([1, 2, 3, 4, 5] : List Nat)[2]? ∧
      ((StackVec.Unallocated ⟨[some 1, some 2, some 3, some 4, some 5, none, none, none], 5⟩ :
        StackVec Nat 8).swap_remove 2).2.len = ([1, 2, 3, 4, 5] : List Nat).length - 1 ∧
      ReprOk ((StackVec.Unallocated ⟨[some 1, some 2, some 3, some 4, some 5, none, none, none], 5⟩ :
        StackVec Nat 8).swap_remove 2).2 (([1, 2, 3, 4, 5] : List Nat).dropLast.set 2 5) := by
  have pr : ReprOk
      (StackVec.Unallocated ⟨[some 1, some 2, some 3, some 4, some 5, none, none, none], 5⟩ :
        StackVec Nat 8) [1, 2, 3, 4, 5] := ⟨rfl, rfl, by decide, rfl⟩
  exact swap_remove_middle _ [1, 2, 3, 4, 5] 2 5 pr (by decide) (by decide)

/-- C4: `swap_remove(i)` with `i ≥ len`, or with `i` the last valid index
(including the only index of a single-element vector), returns `none` and
leaves the vector completely unchanged. -/
theorem swap_remove_rejected (v : StackVec α N) (i : Nat)
    (h : v.len ≤ i ∨ (v.len ≠ 0 ∧ i = v.len - 1)) :
    v.swap_remove i = (none, v) := by
  by_cases h1 : v.len ≤ i
  · simp only [StackVec.swap_remove]
    rw [if_pos h1]
  · obtain ⟨hz, hi⟩ := h.resolve_left h1
    have hcond : (!v.is_empty && i == v.len - 1) = true := by
      rw [hi]
      simp [StackVec.is_empty, hz]
    simp only [StackVec.swap_remove]
    rw [if_neg h1, if_pos hcond]

/-- C4 witness: a two-element vector, `swap_remove` on its last index. -/
theorem swap_remove_rejected_witness :
    (StackVec.Unallocated ⟨[some 1, some 2, none], 2⟩ : StackVec Nat 3).swap_remove 1 =
      (none, (StackVec.Unallocated ⟨[some 1, some 2, none], 2⟩ : StackVec Nat 3)) :=
  swap_remove_rejected _ 1 (Or.inr ⟨by decide, by decide⟩)

/-- C5: once heap-allocated, the vector never returns to the inline state:
each mutating operation (`push`, `pop`, `swap_remove`, `clear`) preserves
`is_allocated = true`; indexed access (`index`) takes the vector immutably
and cannot change the tag at all. -/
theorem heap_state_absorbing (v : StackVec α N) (h : v.is_allocated = true) :
    (∀ x, (v.push x).is_allocated = true) ∧ v.pop.2.is_allocated = true ∧
      (∀ i, (v.swap_remove i).2.is_allocated = true) ∧
      v.clear.is_allocated = true := by
  cases v with
  | Unallocated u => exact absurd h (by simp [StackVec.is_allocated])
  | Allocated a =>
    refine ⟨fun x => rfl, ?_, fun i => ?_, rfl⟩
    · simp only [StackVec.pop]
      split <;> rfl
    · rw [swap_remove_alloc]
      split
      · rfl
      · split
        · rfl
        · split <;> rfl

/-- C5 witness: a concrete heap-allocated vector. -/
theorem heap_state_absorbing_witness :
    ((StackVec.Allocated ⟨[some 1], 1, 1⟩ : StackVec Nat 2).push 9).is_allocated = true ∧
      (StackVec.Allocated ⟨[some 1], 1, 1⟩ : StackVec Nat 2).pop.2.is_allocated = true ∧
      ((StackVec.Allocated ⟨[some 1], 1, 1⟩ : StackVec Nat 2).swap_remove 0).2.is_allocated = true ∧
      (StackVec.Allocated ⟨[some 1], 1, 1⟩ : StackVec Nat 2).clear.is_allocated = true := by
  have h := heap_state_absorbing (StackVec.Allocated ⟨[some 1], 1, 1⟩ : StackVec Nat 2) rfl
  exact ⟨h.1 9, h.2.1, h.2.2.1 0, h.2.2.2⟩

/-- C6: for every sequence of at most `N` pushes from a new vector, the
vector stays inline and `capacity() = N`. -/
theorem inline_until_capacity (xs : List α) (h : xs.length ≤ N) :
    (StackVec.fromList α N xs).is_allocated = false ∧
      (StackVec.fromList α N xs).capacity = N := by
  obtain ⟨hr, hx⟩ := fromList_pushInv (N := N) xs
  cases hcase : StackVec.fromList α N xs with
  | Unallocated u => exact ⟨rfl, rfl⟩
  | Allocated a =>
    rw [hcase] at hr hx
    exfalso
    have h1 := hx.1
    have h2 := hr.2.1
    omega

/-- C6 witness: `N = 4`, three pushes. -/
theorem inline_until_capacity_witness :
    (StackVec.fromList Nat 4 [0, 1, 2]).is_allocated = false ∧
      (StackVec.fromList Nat 4 [0, 1, 2]).capacity = 4 :=
  inline_until_capacity [0, 1, 2] (by decide)

/-- C7: `pop` removes and returns the last element, decrementing the length,
and returns `none` exactly when `len = 0`; consequently after `k` pushes and
`j ≤ k` pops the length is `k - j`. -/
theorem pop_contract :
    (∀ (v : StackVec α N) (xs : List α), ReprOk v xs →
        v.pop.1 = xs.getLast? ∧ v.pop.2.len = v.len - 1 ∧
          ReprOk v.pop.2 xs.dropLast ∧ (v.pop.1 = none ↔ v.len = 0)) ∧
      ∀ (xs : List α) (j : Nat), j ≤ xs.length →
        ((StackVec.fromList α N xs).popAll j).2.len = xs.length - j := by
  constructor
  · intro v xs h
    obtain ⟨h1, h2, h3⟩ := pop_ReprOk h
    refine ⟨h1, h2, h3, ?_⟩
    rw [h1, h.len_eq]
    simp [List.getLast?_eq_none_iff, List.length_eq_zero]
  · intro xs j hj
    have hp := (fromList_pushInv (N := N) xs).1
    have h2 := (popAll_ReprOk j _ xs hp hj).2
    rw [h2.len_eq, List.length_take]
    omega

/-- C7 witness: a concrete pop and a concrete push/pop length count. -/
theorem pop_contract_witness :
    ((StackVec.Allocated ⟨[some 3, some 4], 2, 2⟩ : StackVec Nat 1).pop.1 =
        ([3, 4] : List Nat).getLast? ∧
      (StackVec.Allocated ⟨[some 3, some 4], 2, 2⟩ : StackVec Nat 1).pop.2.len =
        (StackVec.Allocated ⟨[some 3, some 4], 2, 2⟩ : StackVec Nat 1).len - 1 ∧
      ReprOk (StackVec.Allocated ⟨[some 3, some 4], 2, 2⟩ : StackVec Nat 1).pop.2
        ([3, 4] : List Nat).dropLast ∧
      ((StackVec.Allocated ⟨[some 3, some 4], 2, 2⟩ : StackVec Nat 1).pop.1 = none ↔
        (StackVec.Allocated ⟨[some 3, some 4], 2, 2⟩ : StackVec Nat 1).len = 0)) ∧
      ((StackVec.fromList Nat 2 [1, 2, 3]).popAll 2).2.len =
        ([1, 2, 3] : List Nat).length - 2 := by
  have pr : ReprOk (StackVec.Allocated ⟨[some 3, some 4], 2, 2⟩ : StackVec Nat 1) [3, 4] :=
    ⟨rfl, rfl, by decide, by decide, rfl⟩
  exact ⟨pop_contract.1 _ [3, 4] pr, pop_contract.2 [1, 2, 3] 2 (by decide)⟩

/-- C8: pushing `k` values onto a new vector and popping `k` times returns
the values in exact reverse push order and leaves `len = 0`. -/
theorem push_pop_roundtrip (xs : List α) :
    ((StackVec.fromList α N xs).popAll xs.length).1 = xs.reverse.map some ∧
      ((StackVec.fromList α N xs).popAll xs.length).2.len = 0 := by
  have hp := (fromList_pushInv (N := N) xs).1
  have h := popAll_ReprOk xs.length _ xs hp (Nat.le_refl _)
  constructor
  · rw [h.1]
    simp
  · rw [h.2.len_eq]
    simp

/-- C9: `clear` sets the length to 0 and preserves the capacity, the
representation tag, and (for a heap vector) the backing buffer itself. -/
theorem clear_preserves_storage (v : StackVec α N) :
    v.clear.len = 0 ∧ v.clear.capacity = v.capacity ∧
      v.clear.is_allocated = v.is_allocated ∧ v.clear.heapBuffer = v.heapBuffer := by
  cases v with
  | Unallocated u => exact ⟨rfl, rfl, rfl, rfl⟩
  | Allocated a => exact ⟨rfl, rfl, rfl, rfl⟩

/-- C10: `pop` and `swap_remove` leave `capacity()` and `is_allocated()`
unchanged regardless of outcome. -/
theorem removal_frame (v : StackVec α N) (i : Nat) :
    v.pop.2.capacity = v.capacity ∧ v.pop.2.is_allocated = v.is_allocated ∧
      (v.swap_remove i).2.capacity = v.capacity ∧
      (v.swap_remove i).2.is_allocated = v.is_allocated := by
  cases v with
  | Unallocated u =>
    refine ⟨?_, ?_, ?_, ?_⟩ <;>
      simp only [StackVec.pop, swap_remove_unalloc] <;>
      (repeat' split) <;> rfl
  | Allocated a =>
    refine ⟨?_, ?_, ?_, ?_⟩ <;>
      simp only [StackVec.pop, swap_remove_alloc] <;>
      (repeat' split) <;> rfl

end CollectMe
